import Mathlib

/-!
# Verification of the `epoll_threadpool` event manager (`src/eventmanager.cc`)

Shallow embedding of `rpc::EventManager` from `src/eventmanager.cc`.

Modelling conventions:
* `WallTime` (a C `double`, seconds) is modelled as `ℚ`: the claims only use
  comparisons and subtraction of time values, for which rationals are a
  faithful idealisation of the binary64 values involved.
* Callbacks (`std::tr1::function` closures) are opaque; they are modelled by
  `Nat` identifiers.
* `pthread_t` thread identifiers are modelled by `Nat`.
* Side effects other than mutations of the `EventManager` fields
  (`eventfd_write`, `eventfd_read`, `epoll_ctl`, `pthread_create`,
  `pthread_join`, `pthread_mutex_lock/unlock`, callback invocation) are
  recorded in an explicit trace of `Action`s, in program order.
* `std::push_heap` / `std::pop_heap` from `<algorithm>` are modelled by the
  standard binary-heap sift-up / sift-down algorithms they implement
  (array layout, root at index 0, children of `i` at `2i+1` and `2i+2`).
-/

namespace EventManager

open scoped List

/-- A scheduled task: `struct Task { WallTime when; function<void()> f; }`.
`when` is the deadline (wall-clock seconds, modelled as `ℚ`); `f` is an
opaque callback identifier. -/
structure Task where
  when : ℚ
  f : Nat
deriving DecidableEq, Repr

instance : Inhabited Task := ⟨⟨0, 0⟩⟩

/-- Deadline of the task stored at index `i` of the heap array (`0` when out
of range; all uses are guarded by range conditions). Index `0` is
`_tasks.front()`. -/
def wAt (l : List Task) (i : Nat) : ℚ := (l.getD i default).when

/-- Modelled from the spec: `compareTasks` is declared in `eventmanager.h`,
which is not among the repository sources.  The spec describes the timer
queue as "a binary min-heap of (deadline, callback) pairs ordered by
deadline" whose "root always holds the task with the smallest deadline";
`std::push_heap`/`std::pop_heap` with comparator `comp` maintain a max-heap
with respect to `comp`, so `compareTasks a b` must hold exactly when `a`'s
deadline is later than `b`'s. -/
def compareTasks (a b : Task) : Bool := b.when < a.when

/-- One sift-up pass: the element at index `i` is swapped with its parent
while the parent compares greater (`compareTasks parent child`), as done by
`std::push_heap` on the last element of the range.  The parent of index
`i + 1` is `((i + 1) - 1) / 2 = i / 2`. -/
def siftUp (l : List Task) : Nat → List Task
  | 0 => l
  | i + 1 =>
    if compareTasks (l.getD (i / 2) default) (l.getD (i + 1) default) then
      siftUp ((l.set (i / 2) (l.getD (i + 1) default)).set (i + 1) (l.getD (i / 2) default))
        (i / 2)
    else l
termination_by i => i
decreasing_by omega

/-- `std::push_heap(_tasks.begin(), _tasks.end(), &EventManager::compareTasks)`:
restore the heap invariant after the last element was appended. -/
def pushHeap (l : List Task) : List Task := siftUp l (l.length - 1)

/-- The child of `i` that sift-down swaps with: the right child when it exists
and compares smaller than the left child, otherwise the left child. -/
def minChild (l : List Task) (i : Nat) : Nat :=
  if 2 * i + 2 < l.length then
    if compareTasks (l.getD (2 * i + 1) default) (l.getD (2 * i + 2) default) then 2 * i + 2
    else 2 * i + 1
  else 2 * i + 1

theorem minChild_gt (l : List Task) (i : Nat) : i < minChild l i := by
  unfold minChild
  split
  · split <;> omega
  · omega

theorem minChild_ge (l : List Task) (i : Nat) : 2 * i + 1 ≤ minChild l i := by
  unfold minChild
  split
  · split <;> omega
  · omega

theorem minChild_lt_length (l : List Task) (i : Nat) (h : 2 * i + 1 < l.length) :
    minChild l i < l.length := by
  unfold minChild
  split
  · split <;> omega
  · omega

/-- One sift-down pass from index `i`: swap with the smaller child while that
child compares smaller, as done by `std::pop_heap` after moving the last
element to the root. -/
def siftDown (l : List Task) (i : Nat) : List Task :=
  if h1 : 2 * i + 1 < l.length then
    if compareTasks (l.getD i default) (l.getD (minChild l i) default) then
      siftDown
        ((l.set i (l.getD (minChild l i) default)).set (minChild l i) (l.getD i default))
        (minChild l i)
    else l
  else l
termination_by l.length - i
decreasing_by
  have := minChild_gt l i
  have := minChild_lt_length l i h1
  simp only [List.length_set]
  omega

/-- Combined effect of
`Task t = _tasks.front(); pop_heap(_tasks.begin(), _tasks.end(), &EventManager::compareTasks); _tasks.pop_back();`
on the heap array: move the last element to the root, drop the old root, and
sift down. -/
def popHeap : List Task → List Task
  | [] => []
  | [_] => []
  | t :: rest => siftDown ((rest.getLastD t) :: rest.dropLast) 0

/-- The min-heap invariant of the `_tasks` array: every non-root element's
deadline is at least its parent's. -/
def IsMinHeap (l : List Task) : Prop :=
  ∀ j < l.length, 0 < j → wAt l ((j - 1) / 2) ≤ wAt l j

instance (l : List Task) : Decidable (IsMinHeap l) := by
  unfold IsMinHeap; infer_instance

/-! ### `std::map<pair<int,int>, function<void(int)>> _fds` and `std::set<pthread_t> _thread_set` -/

/-- Lookup in the `_fds` table (`_fds.find(key)`), modelled as an ordered
association list from keys `(fd, flags)` to callback identifiers. -/
def lookupFd : List ((Int × Int) × Nat) → (Int × Int) → Option Nat
  | [], _ => none
  | (k, v) :: rest, key => if key = k then some v else lookupFd rest key

/-- Strict ordering of `std::pair<int,int>` keys (lexicographic), as used by
`std::map`. -/
def keyLt (a b : Int × Int) : Prop := a.1 < b.1 ∨ (a.1 = b.1 ∧ a.2 < b.2)

instance : DecidableRel keyLt := fun a b => by unfold keyLt; infer_instance

/-- `_fds[key] = f`: sorted insertion (overwriting an existing entry), the
behaviour of `std::map::operator[]` followed by assignment. -/
def mapInsert (k : Int × Int) (v : Nat) : List ((Int × Int) × Nat) → List ((Int × Int) × Nat)
  | [] => [(k, v)]
  | (k1, v1) :: rest =>
    if keyLt k k1 then (k, v) :: (k1, v1) :: rest
    else if k = k1 then (k, v) :: rest
    else (k1, v1) :: mapInsert k v rest

/-- `_fds.erase(key)`: remove the entry with the given key (keys are unique in
a `std::map`). -/
def mapErase (k : Int × Int) : List ((Int × Int) × Nat) → List ((Int × Int) × Nat)
  | [] => []
  | (k1, v1) :: rest => if k = k1 then rest else (k1, v1) :: mapErase k rest

/-- `_thread_set.insert(t)`: sorted insertion without duplicates, the
behaviour of `std::set::insert`. -/
def setInsert (x : Nat) : List Nat → List Nat
  | [] => [x]
  | y :: rest =>
    if x < y then x :: y :: rest
    else if x = y then y :: rest
    else y :: setInsert x rest

/-! ### Event-manager state and effect traces -/

/-- Externally visible side effects of the `EventManager` member functions, in
program order. -/
inductive Action where
  | lock : Action
  | unlock : Action
  | signal : Action
  | drain : Action
  | epollAdd (fd flags : Int) : Action
  | epollDel (fd flags : Int) : Action
  | spawn (tid : Nat) : Action
  | join (tid : Nat) : Action
  | runCb (cb : Nat) (mask : Int) : Action
deriving DecidableEq, Repr

/-- The mutable fields of `class EventManager` that the claims are about:
`_is_running`, `_tasks` (binary-heap array), `_fds`, `_thread_set`.
(The kernel handles `_epoll_fd` and `_event_fd` are constants owned by the
object; kernel calls against them are recorded in the action trace.) -/
structure EMState where
  is_running : Bool
  tasks : List Task
  fds : List ((Int × Int) × Nat)
  thread_set : List Nat
deriving DecidableEq, Repr

/-- State after `EventManager::EventManager()`: not running, no tasks, no
watched descriptors, no worker threads. -/
def initState : EMState :=
  { is_running := false, tasks := [], fds := [], thread_set := [] }

/-! ### The member functions (traced state transformers) -/

/-- `EventManager::enqueue(function<void()> f, WallTime when)`
(src/eventmanager.cc:123-134). Records the previous earliest deadline
(`-1` when the heap is empty), pushes the new task onto the heap, and signals
the wakeup eventfd iff the front deadline changed. Returns the new state and
the action trace. -/
def enqueue (s : EMState) (f : Nat) (when : ℚ) : EMState × List Action :=
  let t : Task := ⟨when, f⟩
  let oldwhen : ℚ := if s.tasks.isEmpty then -1 else wAt s.tasks 0
  let tasks1 := pushHeap (s.tasks ++ [t])
  let sig : List Action := if oldwhen ≠ wAt tasks1 0 then [.signal] else []
  ({ s with tasks := tasks1 }, .lock :: sig ++ [.unlock])

/-- `EventManager::watchFd(int fd, int flags, function<void(int)> f)`
(src/eventmanager.cc:136-155). Fails if the exact `(fd, flags)` key is
already present; otherwise registers the key with epoll, stores the callback,
and signals the wakeup eventfd. -/
def watchFd (s : EMState) (fd flags : Int) (f : Nat) : Bool × EMState × List Action :=
  if (lookupFd s.fds (fd, flags)).isSome then
    (false, s, [.lock, .unlock])
  else
    (true, { s with fds := mapInsert (fd, flags) f s.fds },
      [.lock, .epollAdd fd flags, .signal, .unlock])

/-- `EventManager::removeFd(int fd, int flags)` (src/eventmanager.cc:157-176).
Fails if the exact `(fd, flags)` key is absent; otherwise deregisters the key
from epoll and erases the callback. No wakeup signal in either case. -/
def removeFd (s : EMState) (fd flags : Int) : Bool × EMState × List Action :=
  if (lookupFd s.fds (fd, flags)).isSome then
    (true, { s with fds := mapErase (fd, flags) s.fds },
      [.lock, .epollDel fd flags, .unlock])
  else
    (false, s, [.lock, .unlock])

/-- `EventManager::start(int num_threads)` (src/eventmanager.cc:67-84).
`caller` is the calling thread's `pthread_self()`; `tids` lists the thread
identifiers `pthread_create` assigns, one per loop iteration (so
`tids.length` is `num_threads` clamped at zero). Fails if the caller is in
`_thread_set`; otherwise sets `_is_running`, spawns the workers and inserts
their identifiers into `_thread_set`. -/
def start (s : EMState) (caller : Nat) (tids : List Nat) : Bool × EMState × List Action :=
  if caller ∈ s.thread_set then
    (false, s, [.lock, .unlock])
  else
    (true,
      { s with is_running := true,
               thread_set := tids.foldl (fun ts tid => setInsert tid ts) s.thread_set },
      .lock :: tids.map Action.spawn ++ [.unlock])

/-- `EventManager::stop()` (src/eventmanager.cc:86-115). `caller` is the
calling thread's `pthread_self()`. Fails if the caller is in `_thread_set`;
otherwise clears `_is_running`, bulk-clears `_fds` and `_tasks` (with no
per-key `epoll_ctl` deregistration), writes the wakeup eventfd once, joins
every registered worker with the mutex released around each join, and clears
`_thread_set`. -/
def stop (s : EMState) (caller : Nat) : Bool × EMState × List Action :=
  if caller ∈ s.thread_set then
    (false, s, [.lock, .unlock])
  else
    (true,
      { s with is_running := false, tasks := [], fds := [], thread_set := [] },
      .lock :: .signal ::
        (s.thread_set.flatMap fun tid => [.unlock, .join tid, .lock]) ++ [.unlock])

/-- `kEpollDefaultWait` from `EventManager::thread_main`
(src/eventmanager.cc:186): the epoll timeout, in milliseconds, used when no
task is queued. -/
def kEpollDefaultWait : Int := 10000

/-- `static_cast<int>` applied to a C `double`: truncation toward zero. -/
def ratTrunc (q : ℚ) : Int := if q < 0 then -⌊-q⌋ else ⌊q⌋

/-- The epoll timeout computed at the top of each `thread_main` loop
iteration (src/eventmanager.cc:190-199): if `_tasks` is non-empty,
`(int)((_tasks.front().when - now) * 1000)` clamped below at `0`; otherwise
`kEpollDefaultWait`. -/
def loopTimeout (tasks : List Task) (now : ℚ) : Int :=
  if !tasks.isEmpty then
    let t := ratTrunc ((wAt tasks 0 - now) * 1000)
    if t < 0 then 0 else t
  else kEpollDefaultWait

/-- Modelled from the spec (§4.4 step 1): "if the timer heap is non-empty,
timeout = max(0, earliest-deadline − now) in integer milliseconds; else use a
bounded default". Used only to compare against `loopTimeout`. -/
def specTimeout (tasks : List Task) (now : ℚ) : Int :=
  if tasks.isEmpty then kEpollDefaultWait
  else ratTrunc (max 0 (wAt tasks 0 - now) * 1000)

/-- Handling of one epoll-reported event inside `thread_main`
(src/eventmanager.cc:212-224): `event_fd` is the wakeup eventfd, `ev_fd` and
`ev_events` are `events[i].data.fd` and `events[i].events`. If the exact
`(fd, events)` key is in `_fds`, the callback is invoked with the reported
mask (mutex released around the call); otherwise, if the descriptor is the
wakeup eventfd, it is drained; otherwise nothing happens. -/
def handleEvent (s : EMState) (event_fd : Int) (ev_fd ev_events : Int) : List Action :=
  match lookupFd s.fds (ev_fd, ev_events) with
  | some f => [.unlock, .runCb f ev_events, .lock]
  | none => if ev_fd = event_fd then [.drain] else []

/-- `siftDown` only swaps elements, so it preserves the array length.
(Needed for the termination of `drainHeap`.) -/
theorem siftDown_length (l : List Task) (i : Nat) : (siftDown l i).length = l.length := by
  induction l, i using siftDown.induct with
  | case1 l i h1 hcmp ih =>
    rw [siftDown, dif_pos h1, if_pos hcmp]
    simpa using ih
  | case2 l i h1 hcmp =>
    rw [siftDown, dif_pos h1, if_neg hcmp]
  | case3 l i h1 =>
    rw [siftDown, dif_neg h1]

/-- `popHeap` removes exactly one element from a non-empty heap.
(Needed for the termination of `drainHeap`.) -/
theorem popHeap_length (l : List Task) : (popHeap l).length = l.length - 1 := by
  match l with
  | [] => rfl
  | [_] => rfl
  | t :: x :: r => simp [popHeap, siftDown_length]

/-- The task-draining loop at the bottom of `thread_main`
(src/eventmanager.cc:227-234) pops the heap root and runs it while the heap
is non-empty (and, in the source, while the root is due; the deadline gate
only decides when firing stops, not the order). `drainHeap` is the full
sequence of tasks in the order the loop fires them. -/
def drainHeap (l : List Task) : List Task :=
  match l with
  | [] => []
  | t :: rest => t :: drainHeap (popHeap (t :: rest))
termination_by l.length
decreasing_by simp [popHeap_length]

/-- State of the reactor after a sequence of `enqueue` calls (deadline,
callback) starting from a given state. -/
def schedAll (s : EMState) (calls : List (ℚ × Nat)) : EMState :=
  calls.foldl (fun s c => (enqueue s c.2 c.1).1) s

/-! ## Indexing lemmas for `wAt` -/

theorem wAt_set_eq (l : List Task) (i : Nat) (t : Task) (h : i < l.length) :
    wAt (l.set i t) i = t.when := by
  unfold wAt
  rw [List.getD_eq_getElem _ _ (by simpa using h)]
  simp

theorem wAt_set_ne (l : List Task) (i j : Nat) (t : Task) (h : i ≠ j) :
    wAt (l.set i t) j = wAt l j := by
  unfold wAt
  rcases Nat.lt_or_ge j l.length with hj | hj
  · rw [List.getD_eq_getElem _ _ (by simpa using hj), List.getD_eq_getElem _ _ hj]
    simp [List.getElem_set_ne h]
  · rw [List.getD_eq_default _ _ (by simpa using hj), List.getD_eq_default _ _ hj]

theorem wAt_append_left (l l2 : List Task) (i : Nat) (h : i < l.length) :
    wAt (l ++ l2) i = wAt l i := by
  unfold wAt
  rw [List.getD_append _ _ _ _ h]

theorem wAt_mem (l : List Task) (i : Nat) (h : i < l.length) : (l.getD i default) ∈ l := by
  rw [List.getD_eq_getElem _ _ h]
  exact List.getElem_mem h

theorem mem_wAt (l : List Task) (t : Task) (h : t ∈ l) :
    ∃ i, i < l.length ∧ wAt l i = t.when := by
  obtain ⟨n, hn, rfl⟩ := List.getElem_of_mem h
  exact ⟨n, hn, by unfold wAt; rw [List.getD_eq_getElem _ _ hn]⟩

/-! ## Permutation lemmas: the heap operations only rearrange elements -/

theorem getD_cons_set_perm (t : List Task) (j : Nat) (a : Task) (hj : j < t.length) :
    (t.getD j default) :: (t.set j a) ~ a :: t := by
  induction t generalizing j with
  | nil => simp at hj
  | cons b t ih =>
    cases j with
    | zero => simpa using List.Perm.swap a b t
    | succ j =>
      calc (b :: t).getD (j + 1) default :: (b :: t).set (j + 1) a
          = t.getD j default :: b :: t.set j a := by simp
        _ ~ b :: t.getD j default :: t.set j a := List.Perm.swap b _ _
        _ ~ b :: (a :: t) := (ih j (by simpa using hj)).cons b
        _ ~ a :: b :: t := List.Perm.swap a b t

/-- Swapping the entries at positions `i < j` is a permutation. -/
theorem swap_perm_lt :
    ∀ (l : List Task) (i j : Nat), i < j → j < l.length →
      (l.set i (l.getD j default)).set j (l.getD i default) ~ l := by
  intro l
  induction l with
  | nil => intro i j _ hj; simp at hj
  | cons b t ih =>
    intro i j hij hj
    cases i with
    | zero =>
      cases j with
      | zero => omega
      | succ j =>
        simp only [List.getD_cons_succ, List.getD_cons_zero, List.set_cons_zero,
          List.set_cons_succ]
        exact getD_cons_set_perm t j b (by simpa using hj)
    | succ i =>
      cases j with
      | zero => omega
      | succ j =>
        simp only [List.getD_cons_succ, List.set_cons_succ]
        exact (ih i j (by omega) (by simpa using hj)).cons b

theorem siftUp_perm (l : List Task) (n : Nat) : n < l.length → siftUp l n ~ l := by
  induction l, n using siftUp.induct with
  | case1 l =>
    intro _
    rw [siftUp]
  | case2 l i hcmp ih =>
    intro h
    rw [siftUp, if_pos hcmp]
    refine List.Perm.trans (ih ?_) (swap_perm_lt l (i / 2) (i + 1) (by omega) h)
    simp only [List.length_set]
    omega
  | case3 l i hcmp =>
    intro _
    rw [siftUp, if_neg hcmp]

theorem pushHeap_perm (l : List Task) (t : Task) : pushHeap (l ++ [t]) ~ l ++ [t] := by
  unfold pushHeap
  apply siftUp_perm
  simp

theorem siftDown_perm (l : List Task) (i : Nat) : siftDown l i ~ l := by
  induction l, i using siftDown.induct with
  | case1 l i h1 hcmp ih =>
    rw [siftDown, dif_pos h1, if_pos hcmp]
    refine List.Perm.trans ih ?_
    exact swap_perm_lt l i (minChild l i) (minChild_gt l i) (minChild_lt_length l i h1)
  | case2 l i h1 hcmp =>
    rw [siftDown, dif_pos h1, if_neg hcmp]
  | case3 l i h1 =>
    rw [siftDown, dif_neg h1]

/-- `popHeap` removes exactly the root: the remaining entries are a
permutation of the original tail. -/
theorem popHeap_perm (t : Task) (rest : List Task) : popHeap (t :: rest) ~ rest := by
  match rest with
  | [] => rfl
  | x :: r =>
    have hne : x :: r ≠ [] := by simp
    have hld : (x :: r).getLastD t = (x :: r).getLast hne := by
      simp [List.getLastD_eq_getLast?, List.getLast?_eq_getLast _ hne]
    show siftDown (((x :: r).getLastD t) :: (x :: r).dropLast) 0 ~ x :: r
    refine List.Perm.trans (siftDown_perm _ 0) ?_
    rw [hld]
    calc (x :: r).getLast hne :: (x :: r).dropLast
        ~ (x :: r).dropLast ++ [(x :: r).getLast hne] :=
          (List.perm_append_singleton _ _).symm
      _ = x :: r := List.dropLast_append_getLast hne

theorem drainHeap_perm (l : List Task) : drainHeap l ~ l := by
  match l with
  | [] => rw [drainHeap]
  | t :: rest =>
    rw [drainHeap]
    exact ((drainHeap_perm (popHeap (t :: rest))).trans (popHeap_perm t rest)).cons t
termination_by l.length
decreasing_by simp [popHeap_length]

/-! ## Heap-invariant lemmas -/

theorem compareTasks_lt {a b : Task} : compareTasks a b = true ↔ b.when < a.when := by
  simp [compareTasks]

/-- Effect of swapping positions `a` and `b` on the deadline at position `k`. -/
theorem wAt_swap (l : List Task) (a b k : Nat) (ha : a < l.length) (hb : b < l.length)
    (hab : a ≠ b) :
    wAt ((l.set a (l.getD b default)).set b (l.getD a default)) k =
      if k = b then wAt l a else if k = a then wAt l b else wAt l k := by
  by_cases hkb : k = b
  · subst hkb
    rw [if_pos rfl, wAt_set_eq _ _ _ (by simpa using hb)]
    rfl
  · rw [if_neg hkb, wAt_set_ne _ _ _ _ (fun h => hkb h.symm)]
    by_cases hka : k = a
    · subst hka
      rw [if_pos rfl, wAt_set_eq _ _ _ ha]
      rfl
    · rw [if_neg hka, wAt_set_ne _ _ _ _ (fun h => hka h.symm)]

/-- Precondition of `siftUp` at index `n`: the heap property holds at every
edge except possibly the one into `n`, and `n`'s children (if any) are
bounded below by `n`'s parent. -/
def UpOk (l : List Task) (n : Nat) : Prop :=
  (∀ j, 0 < j → j < l.length → j ≠ n → wAt l ((j - 1) / 2) ≤ wAt l j) ∧
  (0 < n → ∀ c, c < l.length → (c = 2 * n + 1 ∨ c = 2 * n + 2) →
    wAt l ((n - 1) / 2) ≤ wAt l c)

theorem siftUp_heap (l : List Task) (n : Nat) :
    n < l.length → UpOk l n → IsMinHeap (siftUp l n) := by
  induction l, n using siftUp.induct with
  | case1 l =>
    intro _ inv
    rw [siftUp]
    intro j hjlen hj0
    exact inv.1 j hj0 hjlen (by omega)
  | case2 l i hcmp ih =>
    intro h inv
    rw [siftUp, if_pos hcmp]
    have hp2 : i / 2 < l.length := by omega
    have hpn : i / 2 ≠ i + 1 := by omega
    have hcmp' : wAt l (i + 1) < wAt l (i / 2) := compareTasks_lt.mp hcmp
    apply ih
    · simp only [List.length_set]
      omega
    · constructor
      · intro j hj0 hjlen hjp
        have hjlen' : j < l.length := by simpa using hjlen
        rw [wAt_swap l (i / 2) (i + 1) ((j - 1) / 2) hp2 h hpn,
          wAt_swap l (i / 2) (i + 1) j hp2 h hpn]
        rcases eq_or_ne j (i + 1) with rfl | hjn
        · rw [if_pos rfl]
          have hq : (i + 1 - 1) / 2 = i / 2 := by omega
          rw [hq, if_neg (by omega), if_pos rfl]
          exact hcmp'.le
        · rw [if_neg hjn, if_neg hjp]
          rcases eq_or_ne ((j - 1) / 2) (i + 1) with hq | hq
          · rw [if_pos hq]
            have hb := inv.2 (by omega) j hjlen' (by omega)
            have hq2 : (i + 1 - 1) / 2 = i / 2 := by omega
            rw [hq2] at hb
            exact hb
          · rw [if_neg hq]
            rcases eq_or_ne ((j - 1) / 2) (i / 2) with hq2 | hq2
            · rw [if_pos hq2]
              have ha := inv.1 j hj0 hjlen' hjn
              rw [hq2] at ha
              exact hcmp'.le.trans ha
            · rw [if_neg hq2]
              exact inv.1 j hj0 hjlen' hjn
      · intro hp0 c hclen hcc
        have hclen' : c < l.length := by simpa using hclen
        rw [wAt_swap l (i / 2) (i + 1) ((i / 2 - 1) / 2) hp2 h hpn,
          wAt_swap l (i / 2) (i + 1) c hp2 h hpn]
        rw [if_neg (by omega : (i / 2 - 1) / 2 ≠ i + 1),
          if_neg (by omega : (i / 2 - 1) / 2 ≠ i / 2)]
        rcases eq_or_ne c (i + 1) with rfl | hcn
        · rw [if_pos rfl]
          exact inv.1 (i / 2) hp0 hp2 hpn
        · rw [if_neg hcn, if_neg (by omega : c ≠ i / 2)]
          have hcp := inv.1 c (by omega) hclen' hcn
          have hcpar : (c - 1) / 2 = i / 2 := by omega
          rw [hcpar] at hcp
          exact (inv.1 (i / 2) hp0 hp2 hpn).trans hcp
  | case3 l i hcmp =>
    intro h inv
    rw [siftUp, if_neg hcmp]
    intro j hjlen hj0
    rcases eq_or_ne j (i + 1) with rfl | hjn
    · have hle : wAt l (i / 2) ≤ wAt l (i + 1) :=
        not_lt.mp fun hlt => hcmp (compareTasks_lt.mpr hlt)
      have hq : (i + 1 - 1) / 2 = i / 2 := by omega
      rw [hq]
      exact hle
    · exact inv.1 j hj0 hjlen hjn

theorem minChild_le_left (l : List Task) (i : Nat) :
    wAt l (minChild l i) ≤ wAt l (2 * i + 1) := by
  unfold minChild
  split
  · split
    · rename_i hcmp
      exact (compareTasks_lt.mp hcmp).le
    · exact le_refl _
  · exact le_refl _

theorem minChild_le_right (l : List Task) (i : Nat) (h : 2 * i + 2 < l.length) :
    wAt l (minChild l i) ≤ wAt l (2 * i + 2) := by
  unfold minChild
  rw [if_pos h]
  split
  · exact le_refl _
  · rename_i hcmp
    exact not_lt.mp fun hlt => hcmp (compareTasks_lt.mpr hlt)

theorem minChild_cases (l : List Task) (i : Nat) :
    minChild l i = 2 * i + 1 ∨ minChild l i = 2 * i + 2 := by
  unfold minChild
  split
  · split
    · right
      rfl
    · left
      rfl
  · left
    rfl

/-- Precondition of `siftDown` at index `n`: the heap property holds at every
edge except possibly the edges out of `n`, and `n`'s children (if any) are
bounded below by `n`'s parent. -/
def DownOk (l : List Task) (n : Nat) : Prop :=
  (∀ j, 0 < j → j < l.length → (j - 1) / 2 ≠ n → wAt l ((j - 1) / 2) ≤ wAt l j) ∧
  (0 < n → ∀ c, c < l.length → (c = 2 * n + 1 ∨ c = 2 * n + 2) →
    wAt l ((n - 1) / 2) ≤ wAt l c)

theorem siftDown_heap (l : List Task) (n : Nat) :
    DownOk l n → IsMinHeap (siftDown l n) := by
  induction l, n using siftDown.induct with
  | case1 l i h1 hcmp ih =>
    intro inv
    rw [siftDown, dif_pos h1, if_pos hcmp]
    have hi : i < l.length := by omega
    have hm2 := minChild_gt l i
    have hm1 := minChild_ge l i
    have hmlen := minChild_lt_length l i h1
    have hmpar : (minChild l i - 1) / 2 = i := by
      rcases minChild_cases l i with hm | hm <;> omega
    have hcmp' : wAt l (minChild l i) < wAt l i := compareTasks_lt.mp hcmp
    have hin : i ≠ minChild l i := by omega
    apply ih
    constructor
    · intro j hj0 hjlen hjq
      have hjlen' : j < l.length := by simpa using hjlen
      rw [wAt_swap l i (minChild l i) ((j - 1) / 2) hi hmlen hin,
        wAt_swap l i (minChild l i) j hi hmlen hin]
      by_cases hjm : j = minChild l i
      · rw [hjm, hmpar]
        simpa [hin] using hcmp'.le
      · rw [if_neg hjm]
        by_cases hji : j = i
        · rw [if_pos hji, if_neg hjq]
          have hne : (j - 1) / 2 ≠ i := by omega
          rw [if_neg hne, hji]
          exact inv.2 (by omega) (minChild l i) hmlen (minChild_cases l i)
        · rw [if_neg hji, if_neg hjq]
          by_cases hq2 : (j - 1) / 2 = i
          · rw [if_pos hq2]
            have hj12 : j = 2 * i + 1 ∨ j = 2 * i + 2 := by omega
            rcases hj12 with rfl | rfl
            · exact minChild_le_left l i
            · exact minChild_le_right l i hjlen'
          · rw [if_neg hq2]
            exact inv.1 j hj0 hjlen' hq2
    · intro _ c hclen hcc
      have hclen' : c < l.length := by simpa using hclen
      rw [wAt_swap l i (minChild l i) ((minChild l i - 1) / 2) hi hmlen hin,
        wAt_swap l i (minChild l i) c hi hmlen hin, hmpar]
      rw [if_neg hin, if_pos rfl]
      rw [if_neg (by omega : c ≠ minChild l i), if_neg (by omega : c ≠ i)]
      have hpc : (c - 1) / 2 = minChild l i := by omega
      have hca := inv.1 c (by omega) hclen' (by omega)
      rw [hpc] at hca
      exact hca
  | case2 l i h1 hcmp =>
    intro inv
    rw [siftDown, dif_pos h1, if_neg hcmp]
    intro j hjlen hj0
    by_cases hq : (j - 1) / 2 = i
    · have hic : wAt l i ≤ wAt l (minChild l i) :=
        not_lt.mp fun hlt => hcmp (compareTasks_lt.mpr hlt)
      rw [hq]
      have hj12 : j = 2 * i + 1 ∨ j = 2 * i + 2 := by omega
      rcases hj12 with rfl | rfl
      · exact hic.trans (minChild_le_left l i)
      · exact hic.trans (minChild_le_right l i hjlen)
    · exact inv.1 j hj0 hjlen hq
  | case3 l i h1 =>
    intro inv
    rw [siftDown, dif_neg h1]
    intro j hjlen hj0
    exact inv.1 j hj0 hjlen (by omega)

/-- Pushing onto a heap (append then sift up) preserves the heap invariant:
the effect of `_tasks.push_back(t); push_heap(...)`. -/
theorem pushHeap_isMinHeap (l : List Task) (t : Task) (h : IsMinHeap l) :
    IsMinHeap (pushHeap (l ++ [t])) := by
  unfold pushHeap
  have hn : (l ++ [t]).length - 1 = l.length := by simp
  rw [hn]
  apply siftUp_heap
  · simp
  · constructor
    · intro j hj0 hjlen hjn
      have hjl : j < l.length := by
        simp only [List.length_append, List.length_singleton] at hjlen
        omega
      have hpl : (j - 1) / 2 < l.length := by omega
      rw [wAt_append_left _ _ _ hjl, wAt_append_left _ _ _ hpl]
      exact h j hjl hj0
    · intro h0 c hclen hcc
      simp only [List.length_append, List.length_singleton] at hclen
      omega

/-- In a min-heap, the root deadline is minimal. -/
theorem isMinHeap_root_le (l : List Task) (h : IsMinHeap l) :
    ∀ j, j < l.length → wAt l 0 ≤ wAt l j := by
  intro j
  induction j using Nat.strong_induction_on with
  | _ j ih =>
    intro hj
    rcases Nat.eq_zero_or_pos j with rfl | hj0
    · exact le_refl _
    · exact (ih ((j - 1) / 2) (by omega) (by omega)).trans (h j hj hj0)

theorem wAt_pop_tail (t a x : Task) (r : List Task) (k : Nat) (hk : 0 < k)
    (hklen : k < (x :: r).length) :
    wAt (a :: (x :: r).dropLast) k = wAt (t :: x :: r) k := by
  obtain ⟨k, rfl⟩ : ∃ m, k = m + 1 := ⟨k - 1, by omega⟩
  unfold wAt
  simp only [List.getD_cons_succ]
  have hk2 : k < (x :: r).dropLast.length := by
    simp only [List.length_dropLast, List.length_cons] at *
    omega
  rw [List.getD_eq_getElem _ _ hk2,
    List.getD_eq_getElem _ _ (by simp only [List.length_cons] at *; omega),
    List.getElem_dropLast]

/-- Popping the root (move last to front, drop old root, sift down) preserves
the heap invariant. -/
theorem popHeap_isMinHeap (l : List Task) (h : IsMinHeap l) : IsMinHeap (popHeap l) := by
  match l with
  | [] =>
    intro j hjlen hj0
    have hz : popHeap ([] : List Task) = [] := rfl
    rw [hz] at hjlen
    simp at hjlen
  | [t] =>
    intro j hjlen hj0
    have hz : popHeap [t] = [] := rfl
    rw [hz] at hjlen
    simp at hjlen
  | t :: x :: r =>
    show IsMinHeap (siftDown (((x :: r).getLastD t) :: (x :: r).dropLast) 0)
    apply siftDown_heap
    constructor
    · intro j hj0 hjlen hq
      have hq3 : 3 ≤ j := by omega
      have hlen1 : (((x :: r).getLastD t) :: (x :: r).dropLast).length = (x :: r).length := by
        simp
      rw [hlen1] at hjlen
      have hql : (j - 1) / 2 < (x :: r).length := by omega
      rw [wAt_pop_tail t _ x r j (by omega) hjlen,
        wAt_pop_tail t _ x r ((j - 1) / 2) (by omega) hql]
      exact h j (by simp only [List.length_cons] at *; omega) (by omega)
    · intro h0
      omega

/-- The full drain sequence of a min-heap is sorted by deadline. -/
theorem drainHeap_sorted (l : List Task) (h : IsMinHeap l) :
    List.Sorted (fun a b : Task => a.when ≤ b.when) (drainHeap l) := by
  match l with
  | [] =>
    rw [drainHeap]
    exact List.sorted_nil
  | t :: rest =>
    rw [drainHeap, List.sorted_cons]
    constructor
    · intro b hb
      have hb1 : b ∈ popHeap (t :: rest) := (drainHeap_perm _).mem_iff.mp hb
      have hb2 : b ∈ t :: rest := List.mem_cons_of_mem t ((popHeap_perm t rest).mem_iff.mp hb1)
      obtain ⟨i, hi, hwi⟩ := mem_wAt _ b hb2
      have hroot := isMinHeap_root_le _ h i hi
      rw [hwi] at hroot
      exact hroot
    · exact drainHeap_sorted (popHeap (t :: rest)) (popHeap_isMinHeap _ h)
termination_by l.length
decreasing_by simp [popHeap_length]

/-- The root deadline after a push is the minimum of the old root deadline and
the new deadline (or the new deadline if the heap was empty). -/
theorem pushHeap_root (l : List Task) (t : Task) (h : IsMinHeap l) :
    wAt (pushHeap (l ++ [t])) 0 = if l.isEmpty then t.when else min (wAt l 0) t.when := by
  have hheap := pushHeap_isMinHeap l t h
  have hperm := pushHeap_perm l t
  have hlen : (pushHeap (l ++ [t])).length = l.length + 1 := by
    rw [hperm.length_eq]
    simp
  have hub : ∀ b ∈ l ++ [t], wAt (pushHeap (l ++ [t])) 0 ≤ b.when := by
    intro b hb
    obtain ⟨i, hi, hwi⟩ := mem_wAt _ b (hperm.mem_iff.mpr hb)
    rw [← hwi]
    exact isMinHeap_root_le _ hheap i hi
  have hmem : (pushHeap (l ++ [t])).getD 0 default ∈ l ++ [t] :=
    hperm.mem_iff.mp (wAt_mem _ 0 (by omega))
  match l with
  | [] =>
    have hmem0 : (pushHeap ([] ++ [t])).getD 0 default = t := by
      simpa using hmem
    have hval : wAt (pushHeap ([] ++ [t])) 0 = t.when := by
      unfold wAt
      rw [hmem0]
    simpa using hval
  | x :: l2 =>
    simp only [List.isEmpty_cons, Bool.false_eq_true, if_false]
    apply le_antisymm
    · apply le_min
      · exact hub (x :: l2).head! (by simp)
      · exact hub t (by simp)
    · rcases (List.mem_append.mp hmem) with hm | hm
      · obtain ⟨i, hi, hwi⟩ := mem_wAt _ _ hm
        have := isMinHeap_root_le _ h i hi
        rw [hwi] at this
        exact le_trans (min_le_left _ _) this
      · have : (pushHeap ((x :: l2) ++ [t])).getD 0 default = t := by simpa using hm
        have ht : wAt (pushHeap ((x :: l2) ++ [t])) 0 = t.when := by
          unfold wAt
          rw [this]
        rw [ht]
        exact min_le_right _ _

theorem siftUp_zero (l : List Task) : siftUp l 0 = l := by
  rw [siftUp]

theorem pushHeap_singleton (t : Task) : pushHeap [t] = [t] := by
  unfold pushHeap
  simp only [List.length_singleton]
  exact siftUp_zero [t]

theorem pushHeap_root_nil (t : Task) : wAt (pushHeap ([] ++ [t])) 0 = t.when := by
  have h := pushHeap_root [] t (by intro j hj h0; simp at hj)
  simpa using h

theorem pushHeap_root_cons (x : Task) (l : List Task) (t : Task) (h : IsMinHeap (x :: l)) :
    wAt (pushHeap ((x :: l) ++ [t])) 0 = min (wAt (x :: l) 0) t.when := by
  have h2 := pushHeap_root (x :: l) t h
  simpa using h2

/-! ## Facts about the state transformers -/

theorem enqueue_tasks (s : EMState) (f : Nat) (w : ℚ) :
    (enqueue s f w).1.tasks = pushHeap (s.tasks ++ [⟨w, f⟩]) := rfl

theorem enqueue_trace (s : EMState) (f : Nat) (w : ℚ) :
    (enqueue s f w).2 =
      Action.lock ::
        (if (if s.tasks.isEmpty then (-1 : ℚ) else wAt s.tasks 0)
            ≠ wAt (pushHeap (s.tasks ++ [⟨w, f⟩])) 0 then [Action.signal] else [])
        ++ [Action.unlock] := rfl

theorem signal_mem_trace (c : Prop) [Decidable c] :
    Action.signal ∈
      Action.lock :: (if c then [Action.signal] else []) ++ [Action.unlock] ↔ c := by
  by_cases hc : c <;> simp [hc]

theorem schedAll_isMinHeap (calls : List (ℚ × Nat)) (s : EMState) (h : IsMinHeap s.tasks) :
    IsMinHeap (schedAll s calls).tasks := by
  induction calls generalizing s with
  | nil => exact h
  | cons c cs ih =>
    exact ih ((enqueue s c.2 c.1).1)
      (by rw [enqueue_tasks]; exact pushHeap_isMinHeap _ _ h)

theorem schedAll_tasks_perm (calls : List (ℚ × Nat)) (s : EMState) :
    (schedAll s calls).tasks ~ s.tasks ++ calls.map (fun c => (⟨c.1, c.2⟩ : Task)) := by
  induction calls generalizing s with
  | nil => simp [schedAll]
  | cons c cs ih =>
    calc (schedAll s (c :: cs)).tasks
        ~ (enqueue s c.2 c.1).1.tasks ++ cs.map (fun c => (⟨c.1, c.2⟩ : Task)) := ih _
      _ ~ (s.tasks ++ [⟨c.1, c.2⟩]) ++ cs.map (fun c => (⟨c.1, c.2⟩ : Task)) := by
          apply List.Perm.append_right
          rw [enqueue_tasks]
          exact pushHeap_perm _ _
      _ = s.tasks ++ (c :: cs).map (fun c => (⟨c.1, c.2⟩ : Task)) := by simp

/-! ## Association-list and set lemmas -/

theorem lookupFd_eq_none (m : List ((Int × Int) × Nat)) (k : Int × Int) :
    lookupFd m k = none ↔ k ∉ m.map Prod.fst := by
  induction m with
  | nil => simp [lookupFd]
  | cons e m ih =>
    obtain ⟨k1, v1⟩ := e
    unfold lookupFd
    by_cases hk : k = k1
    · subst hk
      simp
    · rw [if_neg hk]
      simp [hk, ih]

theorem lookupFd_mapInsert (m : List ((Int × Int) × Nat)) (k : Int × Int) (v : Nat) :
    lookupFd (mapInsert k v m) k = some v := by
  induction m with
  | nil => simp [mapInsert, lookupFd]
  | cons e m ih =>
    obtain ⟨k1, v1⟩ := e
    unfold mapInsert
    split
    · unfold lookupFd
      rw [if_pos rfl]
    · split
      · unfold lookupFd
        rw [if_pos rfl]
      · rename_i hne
        unfold lookupFd
        rw [if_neg hne]
        exact ih

theorem lookupFd_mapErase (m : List ((Int × Int) × Nat)) (k : Int × Int)
    (hnd : (m.map Prod.fst).Nodup) : lookupFd (mapErase k m) k = none := by
  induction m with
  | nil => rfl
  | cons e m ih =>
    obtain ⟨k1, v1⟩ := e
    simp only [List.map_cons, List.nodup_cons] at hnd
    unfold mapErase
    by_cases hk : k = k1
    · rw [if_pos hk]
      subst hk
      exact (lookupFd_eq_none m k).mpr hnd.1
    · rw [if_neg hk]
      unfold lookupFd
      rw [if_neg hk]
      exact ih hnd.2

theorem mem_setInsert (x y : Nat) (l : List Nat) :
    y ∈ setInsert x l ↔ y = x ∨ y ∈ l := by
  induction l with
  | nil => simp [setInsert]
  | cons z l ih =>
    unfold setInsert
    split
    · simp
    · split
      · rename_i hlt heq
        subst heq
        simp
      · simp [ih]
        tauto

theorem mem_foldl_setInsert (tids : List Nat) (ts : List Nat) (x : Nat) :
    x ∈ tids.foldl (fun acc tid => setInsert tid acc) ts ↔ x ∈ tids ∨ x ∈ ts := by
  induction tids generalizing ts with
  | nil => simp
  | cons t tids ih =>
    simp only [List.foldl_cons, List.mem_cons, ih, mem_setInsert]
    tauto

/-! ## `ratTrunc` lemmas -/

theorem ratTrunc_zero : ratTrunc 0 = 0 := by
  unfold ratTrunc
  norm_num

theorem ratTrunc_nonneg (q : ℚ) (h : 0 ≤ q) : 0 ≤ ratTrunc q := by
  unfold ratTrunc
  rw [if_neg (not_lt.mpr h)]
  exact Int.floor_nonneg.mpr h

theorem ratTrunc_nonpos (q : ℚ) (h : q ≤ 0) : ratTrunc q ≤ 0 := by
  unfold ratTrunc
  split
  · rename_i hq
    have hf : (0 : Int) ≤ ⌊-q⌋ := Int.floor_nonneg.mpr (by linarith)
    omega
  · exact Int.floor_nonpos h

/-- Clamping a truncated product below at `0` is the same as truncating the
product of the clamped factor. -/
theorem clamp_trunc (d : ℚ) :
    (if ratTrunc (d * 1000) < 0 then 0 else ratTrunc (d * 1000)) =
      ratTrunc (max 0 d * 1000) := by
  rcases le_or_lt 0 d with hd | hd
  · rw [max_eq_right hd,
      if_neg (not_lt.mpr (ratTrunc_nonneg _ (mul_nonneg hd (by norm_num))))]
  · have h1 : d * 1000 ≤ 0 := by nlinarith
    have ht := ratTrunc_nonpos _ h1
    rw [max_eq_left hd.le, zero_mul, ratTrunc_zero]
    rcases lt_or_eq_of_le ht with h0 | h0
    · rw [if_pos h0]
    · rw [if_neg (by omega)]
      omega

/-! ## The claims -/

/-- C1: for every sequence of `enqueue` calls with pairwise-distinct
deadlines starting from a fresh reactor, the drain loop fires the scheduled
tasks in non-decreasing deadline order, it fires exactly the scheduled tasks,
and the heap root always holds the minimum deadline
(src/eventmanager.cc:123-134 and 227-234). -/
theorem C1_deadline_order (calls : List (ℚ × Nat))
    (hdist : (calls.map Prod.fst).Pairwise (fun a b => a ≠ b)) :
    List.Sorted (fun a b : Task => a.when ≤ b.when)
      (drainHeap (schedAll initState calls).tasks)
    ∧ drainHeap (schedAll initState calls).tasks ~
        calls.map (fun c => (⟨c.1, c.2⟩ : Task))
    ∧ (∀ t ∈ (schedAll initState calls).tasks,
        wAt (schedAll initState calls).tasks 0 ≤ t.when) := by
  have hh : IsMinHeap (schedAll initState calls).tasks :=
    schedAll_isMinHeap calls initState (by intro j hj h0; simp [initState] at hj)
  refine ⟨drainHeap_sorted _ hh, ?_, ?_⟩
  · refine (drainHeap_perm _).trans ?_
    have hp := schedAll_tasks_perm calls initState
    simpa [initState] using hp
  · intro t ht
    obtain ⟨i, hi, hwi⟩ := mem_wAt _ t ht
    rw [← hwi]
    exact isMinHeap_root_le _ hh i hi

/-- C2, counterexample to the claim as stated: on an *empty* heap, a task
with deadline exactly `-1` (the sentinel `oldwhen` value of
src/eventmanager.cc:126) is enqueued without any wakeup signal, although the
claim requires a signal whenever the heap was empty. -/
theorem C2_claim_counterexample :
    initState.tasks = [] ∧ Action.signal ∉ (enqueue initState 0 (-1)).2 := by
  refine ⟨rfl, ?_⟩
  rw [enqueue_trace, signal_mem_trace, not_ne_iff]
  show (if ([] : List Task).isEmpty then (-1 : ℚ) else wAt [] 0)
      = wAt (pushHeap ([] ++ [(⟨-1, 0⟩ : Task)])) 0
  rw [pushHeap_root_nil]
  simp

/-- C2 (amended): `enqueue` signals the wakeup channel iff the sentinel
`oldwhen` (`-1` on an empty heap, else the previous front deadline) differs
from the new front deadline: that is, iff the heap was empty and the new
deadline is not exactly `-1`, or the heap was non-empty and the new deadline
is strictly earlier than the previous earliest (src/eventmanager.cc:126-132). -/
theorem C2_signal_iff_amended (s : EMState) (f : Nat) (w : ℚ) (h : IsMinHeap s.tasks) :
    Action.signal ∈ (enqueue s f w).2 ↔
      ((s.tasks = [] ∧ w ≠ -1) ∨ (s.tasks ≠ [] ∧ w < wAt s.tasks 0)) := by
  rw [enqueue_trace, signal_mem_trace]
  rcases hts : s.tasks with _ | ⟨x, l2⟩
  · rw [pushHeap_root_nil]
    simp [ne_comm]
  · rw [pushHeap_root_cons x l2 ⟨w, f⟩ (hts ▸ h)]
    have hiff : (wAt (x :: l2) 0 ≠ min (wAt (x :: l2) 0) w) ↔ w < wAt (x :: l2) 0 := by
      constructor
      · intro hne
        by_contra hle
        exact hne (min_eq_left (not_lt.mp hle)).symm
      · intro hlt
        rw [min_eq_right hlt.le]
        exact fun he => lt_irrefl w (he ▸ hlt)
    simp [hiff]

/-- C9: `enqueue` has no failure path: for every state, callback and
deadline (past deadlines and duplicate deadlines included) it adds exactly
one task to the heap and changes nothing else
(src/eventmanager.cc:123-134). -/
theorem C9_enqueue_total (s : EMState) (f : Nat) (w : ℚ) :
    (enqueue s f w).1.tasks ~ s.tasks ++ [⟨w, f⟩]
    ∧ (enqueue s f w).1.tasks.length = s.tasks.length + 1
    ∧ (enqueue s f w).1.is_running = s.is_running
    ∧ (enqueue s f w).1.fds = s.fds
    ∧ (enqueue s f w).1.thread_set = s.thread_set := by
  have hp : (enqueue s f w).1.tasks ~ s.tasks ++ [⟨w, f⟩] := by
    rw [enqueue_tasks]
    exact pushHeap_perm _ _
  exact ⟨hp, by rw [hp.length_eq]; simp, rfl, rfl, rfl⟩

/-- C7: in every reactor-loop iteration the epoll timeout equals
`max 0 (earliest deadline − now)` truncated to integer milliseconds when the
heap is non-empty, and the bounded default `kEpollDefaultWait = 10000` ms
when it is empty (src/eventmanager.cc:190-199). -/
theorem C7_loop_timeout (tasks : List Task) (now : ℚ) :
    loopTimeout tasks now = specTimeout tasks now ∧ kEpollDefaultWait = 10000 := by
  refine ⟨?_, rfl⟩
  simp only [loopTimeout, specTimeout]
  cases hts : tasks.isEmpty
  · simp only [Bool.not_false, if_true, Bool.false_eq_true, if_false]
    exact clamp_trunc _
  · simp only [Bool.not_true, Bool.false_eq_true, if_false, if_true]

/-- C8: during dispatch of one epoll event, a watch callback is invoked
(with the reported mask) exactly when the `(fd, reported mask)` pair is a
registered key; when the key is absent, an event on the wakeup eventfd is
drained and nothing else happens, and any other event is ignored — even one
whose reported mask intersects a registered mask for the same descriptor
(src/eventmanager.cc:212-224). -/
theorem C8_dispatch (s : EMState) (event_fd ev_fd ev_events : Int) :
    (∀ f, lookupFd s.fds (ev_fd, ev_events) = some f →
        handleEvent s event_fd ev_fd ev_events =
          [Action.unlock, Action.runCb f ev_events, Action.lock])
    ∧ (lookupFd s.fds (ev_fd, ev_events) = none → ev_fd = event_fd →
        handleEvent s event_fd ev_fd ev_events = [Action.drain])
    ∧ (lookupFd s.fds (ev_fd, ev_events) = none → ev_fd ≠ event_fd →
        handleEvent s event_fd ev_fd ev_events = [])
    ∧ (∀ f mask, Action.runCb f mask ∈ handleEvent s event_fd ev_fd ev_events →
        lookupFd s.fds (ev_fd, ev_events) = some f ∧ mask = ev_events) := by
  refine ⟨?_, ?_, ?_, ?_⟩
  · intro f hf
    simp [handleEvent, hf]
  · intro hn he
    subst he
    simp [handleEvent, hn]
  · intro hn he
    simp [handleEvent, hn, he]
  · intro f mask hmem
    unfold handleEvent at hmem
    rcases hl : lookupFd s.fds (ev_fd, ev_events) with _ | g
    · rw [hl] at hmem
      by_cases he : ev_fd = event_fd
      · simp [he] at hmem
      · simp [he] at hmem
    · rw [hl] at hmem
      simp only [List.mem_cons] at hmem
      have hfg : f = g ∧ mask = ev_events := by
        rcases hmem with h1 | h1 | h1
        · exact absurd h1 (by simp)
        · exact ⟨(Action.runCb.inj h1).1, (Action.runCb.inj h1).2⟩
        · simp at h1
      rw [hfg.1, hfg.2]
      exact ⟨rfl, rfl⟩

/-- C3: `stop` fails with no state change when called from a registered
worker thread; otherwise it returns `true`, clears `_is_running`, bulk-clears
the task heap and the descriptor table without running any callback and
without any per-key `epoll_ctl` deregistration, writes the wakeup eventfd
exactly once, joins every registered worker with the mutex released around
each join, and clears the thread registry (src/eventmanager.cc:86-115). -/
theorem C3_stop (s : EMState) (caller : Nat) :
    (caller ∈ s.thread_set → stop s caller = (false, s, [Action.lock, Action.unlock]))
    ∧ (caller ∉ s.thread_set →
        (stop s caller).1 = true
        ∧ (stop s caller).2.1 =
            { is_running := false, tasks := [], fds := [], thread_set := [] }
        ∧ (stop s caller).2.2 =
            Action.lock :: Action.signal ::
              ((s.thread_set.flatMap fun tid => [Action.unlock, Action.join tid, Action.lock])
                ++ [Action.unlock])
        ∧ (stop s caller).2.2.count Action.signal = 1
        ∧ (∀ fd flags, Action.epollDel fd flags ∉ (stop s caller).2.2)
        ∧ (∀ cb mask, Action.runCb cb mask ∉ (stop s caller).2.2)
        ∧ (∀ tid ∈ s.thread_set, ∃ pre post,
            (stop s caller).2.2 =
              pre ++ Action.unlock :: Action.join tid :: Action.lock :: post)) := by
  constructor
  · intro h
    unfold stop
    rw [if_pos h]
  · intro h
    have hs : stop s caller = (true,
        { is_running := false, tasks := [], fds := [], thread_set := [] },
        Action.lock :: Action.signal ::
          ((s.thread_set.flatMap fun tid => [Action.unlock, Action.join tid, Action.lock])
            ++ [Action.unlock])) := by
      unfold stop
      rw [if_neg h]
      simp
    rw [hs]
    have hnosig : Action.signal ∉
        (s.thread_set.flatMap fun tid => [Action.unlock, Action.join tid, Action.lock]) := by
      simp
    refine ⟨rfl, rfl, rfl, ?_, ?_, ?_, ?_⟩
    · simp [List.count_cons, List.count_eq_zero.mpr hnosig]
    · intro fd flags
      simp
    · intro cb mask
      simp
    · intro tid htid
      obtain ⟨ts1, ts2, hsplit⟩ := List.append_of_mem htid
      refine ⟨Action.lock :: Action.signal ::
          (ts1.flatMap fun t => [Action.unlock, Action.join t, Action.lock]),
        (ts2.flatMap fun t => [Action.unlock, Action.join t, Action.lock]) ++ [Action.unlock],
        ?_⟩
      rw [hsplit]
      simp

/-- C4: `start` fails with no state change when called from a registered
worker thread; otherwise (also when the reactor is already running) it
marks the reactor running, spawns one worker per requested thread, records
every spawned identifier in the registry, leaves tasks and watches alone and
returns `true`.  `tids` are the identifiers `pthread_create` assigns, one
per loop iteration (src/eventmanager.cc:67-84). -/
theorem C4_start (s : EMState) (caller : Nat) (tids : List Nat) :
    (caller ∈ s.thread_set → start s caller tids = (false, s, [Action.lock, Action.unlock]))
    ∧ (caller ∉ s.thread_set →
        (start s caller tids).1 = true
        ∧ (start s caller tids).2.1.is_running = true
        ∧ (∀ tid ∈ tids, tid ∈ (start s caller tids).2.1.thread_set)
        ∧ (∀ tid ∈ s.thread_set, tid ∈ (start s caller tids).2.1.thread_set)
        ∧ (start s caller tids).2.1.tasks = s.tasks
        ∧ (start s caller tids).2.1.fds = s.fds
        ∧ (start s caller tids).2.2 = Action.lock :: tids.map Action.spawn ++ [Action.unlock]
        ∧ (start s caller tids).2.2.countP
            (fun a => match a with | Action.spawn _ => true | _ => false) = tids.length) := by
  constructor
  · intro h
    unfold start
    rw [if_pos h]
  · intro h
    have hs : start s caller tids = (true,
        { s with is_running := true,
                 thread_set := tids.foldl (fun ts tid => setInsert tid ts) s.thread_set },
        Action.lock :: tids.map Action.spawn ++ [Action.unlock]) := by
      unfold start
      rw [if_neg h]
    rw [hs]
    refine ⟨rfl, rfl, ?_, ?_, rfl, rfl, rfl, ?_⟩
    · intro tid htid
      exact (mem_foldl_setInsert tids s.thread_set tid).mpr (Or.inl htid)
    · intro tid htid
      exact (mem_foldl_setInsert tids s.thread_set tid).mpr (Or.inr htid)
    · simp [List.countP_cons, Function.comp_def]

/-- C10: `start` with a non-positive thread count (the spawn loop runs zero
times, so `tids = []`) from a non-worker thread returns `true`, marks the
reactor running, spawns nothing and leaves the thread registry unchanged
(src/eventmanager.cc:67-84). -/
theorem C10_start_zero (s : EMState) (caller : Nat) (h : caller ∉ s.thread_set) :
    start s caller [] = (true, { s with is_running := true }, [Action.lock, Action.unlock])
    ∧ (start s caller []).2.1.thread_set = s.thread_set
    ∧ ∀ tid, Action.spawn tid ∉ (start s caller []).2.2 := by
  have hs : start s caller [] =
      (true, { s with is_running := true }, [Action.lock, Action.unlock]) := by
    unfold start
    rw [if_neg h]
    exact rfl
  rw [hs]
  exact ⟨rfl, rfl, fun tid => by simp⟩

/-- C5: `watchFd` fails, with the state (descriptor table and stored
callbacks included) unchanged and no kernel call and no signal, when the
exact `(fd, flags)` key is already registered; otherwise it registers the key
with epoll, stores the callback under the key, signals the wakeup channel
and returns `true` (src/eventmanager.cc:136-155). -/
theorem C5_watchFd (s : EMState) (fd flags : Int) (f : Nat) :
    ((lookupFd s.fds (fd, flags)).isSome = true →
      watchFd s fd flags f = (false, s, [Action.lock, Action.unlock]))
    ∧ ((lookupFd s.fds (fd, flags)).isSome = false →
      (watchFd s fd flags f).1 = true
      ∧ (watchFd s fd flags f).2.1.fds = mapInsert (fd, flags) f s.fds
      ∧ lookupFd (watchFd s fd flags f).2.1.fds (fd, flags) = some f
      ∧ (watchFd s fd flags f).2.2 =
          [Action.lock, Action.epollAdd fd flags, Action.signal, Action.unlock]
      ∧ (watchFd s fd flags f).2.1.tasks = s.tasks
      ∧ (watchFd s fd flags f).2.1.is_running = s.is_running
      ∧ (watchFd s fd flags f).2.1.thread_set = s.thread_set) := by
  constructor
  · intro h
    unfold watchFd
    rw [if_pos h]
  · intro h
    have hs : watchFd s fd flags f = (true,
        { s with fds := mapInsert (fd, flags) f s.fds },
        [Action.lock, Action.epollAdd fd flags, Action.signal, Action.unlock]) := by
      unfold watchFd
      rw [if_neg (by simp [h])]
    rw [hs]
    exact ⟨rfl, rfl, lookupFd_mapInsert s.fds (fd, flags) f, rfl, rfl, rfl, rfl⟩

/-- C6: `removeFd` fails with no side effect when the exact `(fd, flags)`
key is absent; otherwise it issues the `epoll_ctl` deregistration for that
exact key, erases the stored callback and returns `true`.  No wakeup signal
is sent in either case (src/eventmanager.cc:157-176). -/
theorem C6_removeFd (s : EMState) (fd flags : Int) :
    (lookupFd s.fds (fd, flags) = none →
      removeFd s fd flags = (false, s, [Action.lock, Action.unlock]))
    ∧ ((lookupFd s.fds (fd, flags)).isSome = true →
      (removeFd s fd flags).1 = true
      ∧ (removeFd s fd flags).2.1.fds = mapErase (fd, flags) s.fds
      ∧ ((s.fds.map Prod.fst).Nodup →
          lookupFd (removeFd s fd flags).2.1.fds (fd, flags) = none)
      ∧ (removeFd s fd flags).2.2 = [Action.lock, Action.epollDel fd flags, Action.unlock]
      ∧ (removeFd s fd flags).2.1.tasks = s.tasks
      ∧ (removeFd s fd flags).2.1.is_running = s.is_running
      ∧ (removeFd s fd flags).2.1.thread_set = s.thread_set)
    ∧ Action.signal ∉ (removeFd s fd flags).2.2 := by
  refine ⟨?_, ?_, ?_⟩
  · intro h
    unfold removeFd
    rw [if_neg (by simp [h])]
  · intro h
    have hs : removeFd s fd flags = (true,
        { s with fds := mapErase (fd, flags) s.fds },
        [Action.lock, Action.epollDel fd flags, Action.unlock]) := by
      unfold removeFd
      rw [if_pos h]
    rw [hs]
    exact ⟨rfl, rfl, fun hnd => lookupFd_mapErase s.fds (fd, flags) hnd, rfl, rfl, rfl, rfl⟩
  · unfold removeFd
    split
    · simp
    · simp

/-! ## Witnesses: the claim theorems applied at concrete inputs -/

/-- C1 at the concrete schedule `(3, 1, 2)` with distinct deadlines. -/
theorem C1_deadline_order_witness :
    (([(((3 : ℚ)), 0), (((1 : ℚ)), 1), (((2 : ℚ)), 2)] : List (ℚ × Nat)).map
      Prod.fst).Pairwise (fun a b => a ≠ b)
    ∧ (List.Sorted (fun a b : Task => a.when ≤ b.when)
        (drainHeap (schedAll initState
          [(((3 : ℚ)), 0), (((1 : ℚ)), 1), (((2 : ℚ)), 2)]).tasks)
      ∧ drainHeap (schedAll initState
          [(((3 : ℚ)), 0), (((1 : ℚ)), 1), (((2 : ℚ)), 2)]).tasks ~
          ([(((3 : ℚ)), 0), (((1 : ℚ)), 1), (((2 : ℚ)), 2)] : List (ℚ × Nat)).map
            (fun c => (⟨c.1, c.2⟩ : Task))
      ∧ (∀ t ∈ (schedAll initState
            [(((3 : ℚ)), 0), (((1 : ℚ)), 1), (((2 : ℚ)), 2)]).tasks,
          wAt (schedAll initState
            [(((3 : ℚ)), 0), (((1 : ℚ)), 1), (((2 : ℚ)), 2)]).tasks 0 ≤ t.when)) :=
  ⟨by decide, C1_deadline_order _ (by decide)⟩

/-- C2 (amended) on a singleton heap with an earlier new deadline. -/
theorem C2_signal_iff_witness :
    IsMinHeap ((⟨true, [⟨1, 0⟩], [], []⟩ : EMState).tasks)
    ∧ (Action.signal ∈ (enqueue ⟨true, [⟨1, 0⟩], [], []⟩ 5 0).2 ↔
        (((⟨true, [⟨1, 0⟩], [], []⟩ : EMState).tasks = [] ∧ (0 : ℚ) ≠ -1)
          ∨ ((⟨true, [⟨1, 0⟩], [], []⟩ : EMState).tasks ≠ []
              ∧ (0 : ℚ) < wAt (⟨true, [⟨1, 0⟩], [], []⟩ : EMState).tasks 0))) :=
  ⟨by decide, C2_signal_iff_amended ⟨true, [⟨1, 0⟩], [], []⟩ 5 0 (by decide)⟩

/-- C3 on a state with one pending task, one watch and one worker. -/
theorem C3_stop_witness :
    (5 ∈ (⟨true, [⟨1, 0⟩], [((3, 1), 7)], [5]⟩ : EMState).thread_set
      ∧ stop ⟨true, [⟨1, 0⟩], [((3, 1), 7)], [5]⟩ 5 =
          (false, ⟨true, [⟨1, 0⟩], [((3, 1), 7)], [5]⟩, [Action.lock, Action.unlock]))
    ∧ (9 ∉ (⟨true, [⟨1, 0⟩], [((3, 1), 7)], [5]⟩ : EMState).thread_set
      ∧ (stop ⟨true, [⟨1, 0⟩], [((3, 1), 7)], [5]⟩ 9).1 = true
      ∧ (stop ⟨true, [⟨1, 0⟩], [((3, 1), 7)], [5]⟩ 9).2.1 =
          { is_running := false, tasks := [], fds := [], thread_set := [] }
      ∧ (stop ⟨true, [⟨1, 0⟩], [((3, 1), 7)], [5]⟩ 9).2.2.count Action.signal = 1) :=
  ⟨⟨by decide, (C3_stop ⟨true, [⟨1, 0⟩], [((3, 1), 7)], [5]⟩ 5).1 (by decide)⟩,
    by decide,
    ((C3_stop ⟨true, [⟨1, 0⟩], [((3, 1), 7)], [5]⟩ 9).2 (by decide)).1,
    ((C3_stop ⟨true, [⟨1, 0⟩], [((3, 1), 7)], [5]⟩ 9).2 (by decide)).2.1,
    ((C3_stop ⟨true, [⟨1, 0⟩], [((3, 1), 7)], [5]⟩ 9).2 (by decide)).2.2.2.1⟩

/-- C4 on an already-running reactor (one worker, two more spawned). -/
theorem C4_start_witness :
    (9 ∉ (⟨true, [], [], [5]⟩ : EMState).thread_set
      ∧ (start ⟨true, [], [], [5]⟩ 9 [11, 12]).1 = true
      ∧ (start ⟨true, [], [], [5]⟩ 9 [11, 12]).2.1.is_running = true
      ∧ (∀ tid ∈ [11, 12], tid ∈ (start ⟨true, [], [], [5]⟩ 9 [11, 12]).2.1.thread_set))
    ∧ (5 ∈ (⟨true, [], [], [5]⟩ : EMState).thread_set
      ∧ start ⟨true, [], [], [5]⟩ 5 [11] =
          (false, ⟨true, [], [], [5]⟩, [Action.lock, Action.unlock])) :=
  ⟨⟨by decide, ((C4_start ⟨true, [], [], [5]⟩ 9 [11, 12]).2 (by decide)).1,
      ((C4_start ⟨true, [], [], [5]⟩ 9 [11, 12]).2 (by decide)).2.1,
      ((C4_start ⟨true, [], [], [5]⟩ 9 [11, 12]).2 (by decide)).2.2.1⟩,
    by decide, (C4_start ⟨true, [], [], [5]⟩ 5 [11]).1 (by decide)⟩

/-- C5: re-registering the identical key fails; a fresh key succeeds. -/
theorem C5_watchFd_witness :
    ((lookupFd (⟨false, [], [((3, 1), 7)], []⟩ : EMState).fds (3, 1)).isSome = true
      ∧ watchFd ⟨false, [], [((3, 1), 7)], []⟩ 3 1 9 =
          (false, ⟨false, [], [((3, 1), 7)], []⟩, [Action.lock, Action.unlock]))
    ∧ ((lookupFd (⟨false, [], [((3, 1), 7)], []⟩ : EMState).fds (4, 1)).isSome = false
      ∧ (watchFd ⟨false, [], [((3, 1), 7)], []⟩ 4 1 9).1 = true
      ∧ lookupFd (watchFd ⟨false, [], [((3, 1), 7)], []⟩ 4 1 9).2.1.fds (4, 1) = some 9) :=
  ⟨⟨by decide, (C5_watchFd ⟨false, [], [((3, 1), 7)], []⟩ 3 1 9).1 (by decide)⟩,
    by decide,
    ((C5_watchFd ⟨false, [], [((3, 1), 7)], []⟩ 4 1 9).2 (by decide)).1,
    ((C5_watchFd ⟨false, [], [((3, 1), 7)], []⟩ 4 1 9).2 (by decide)).2.2.1⟩

/-- C6: removing an absent key fails with no effect; removing a present key
erases it. -/
theorem C6_removeFd_witness :
    (lookupFd (⟨false, [], [((3, 1), 7)], []⟩ : EMState).fds (4, 2) = none
      ∧ removeFd ⟨false, [], [((3, 1), 7)], []⟩ 4 2 =
          (false, ⟨false, [], [((3, 1), 7)], []⟩, [Action.lock, Action.unlock]))
    ∧ ((lookupFd (⟨false, [], [((3, 1), 7)], []⟩ : EMState).fds (3, 1)).isSome = true
      ∧ (removeFd ⟨false, [], [((3, 1), 7)], []⟩ 3 1).1 = true
      ∧ lookupFd (removeFd ⟨false, [], [((3, 1), 7)], []⟩ 3 1).2.1.fds (3, 1) = none) :=
  ⟨⟨by decide, (C6_removeFd ⟨false, [], [((3, 1), 7)], []⟩ 4 2).1 (by decide)⟩,
    by decide,
    ((C6_removeFd ⟨false, [], [((3, 1), 7)], []⟩ 3 1).2.1 (by decide)).1,
    ((C6_removeFd ⟨false, [], [((3, 1), 7)], []⟩ 3 1).2.1 (by decide)).2.2.1 (by decide)⟩

/-- C8: a registered key `(5, 1)` dispatches with the reported mask; the
wakeup eventfd (`100`) is drained; a reported mask `3` that merely intersects
the registered mask `1` on descriptor `5` is ignored. -/
theorem C8_dispatch_witness :
    (lookupFd (⟨true, [], [((5, 1), 7)], []⟩ : EMState).fds (5, 1) = some 7
      ∧ handleEvent ⟨true, [], [((5, 1), 7)], []⟩ 100 5 1 =
          [Action.unlock, Action.runCb 7 1, Action.lock])
    ∧ (lookupFd (⟨true, [], [((5, 1), 7)], []⟩ : EMState).fds (100, 1) = none
      ∧ handleEvent ⟨true, [], [((5, 1), 7)], []⟩ 100 100 1 = [Action.drain])
    ∧ (lookupFd (⟨true, [], [((5, 1), 7)], []⟩ : EMState).fds (5, 3) = none
      ∧ (5 : Int) ≠ 100
      ∧ handleEvent ⟨true, [], [((5, 1), 7)], []⟩ 100 5 3 = []) :=
  ⟨⟨by decide, (C8_dispatch ⟨true, [], [((5, 1), 7)], []⟩ 100 5 1).1 7 (by decide)⟩,
    ⟨by decide, (C8_dispatch ⟨true, [], [((5, 1), 7)], []⟩ 100 100 1).2.1 (by decide) rfl⟩,
    by decide, by decide,
    (C8_dispatch ⟨true, [], [((5, 1), 7)], []⟩ 100 5 3).2.2.1 (by decide) (by decide)⟩

/-- C10: `start` with zero threads from a fresh reactor. -/
theorem C10_start_zero_witness :
    9 ∉ (⟨false, [], [], []⟩ : EMState).thread_set
    ∧ start ⟨false, [], [], []⟩ 9 [] =
        (true, ⟨true, [], [], []⟩, [Action.lock, Action.unlock]) :=
  ⟨by decide, (C10_start_zero ⟨false, [], [], []⟩ 9 (by decide)).1⟩

end EventManager
